import Mathlib

/-!
Shallow embedding of the `iso_11649` Rust crate (`src/lib.rs`, `src/parse_error.rs`).

Rust strings are modelled as `List Char` (the string's characters).  Rust's
`str::len` and all slice positions are *byte* indices into the UTF-8 encoding,
so the model tracks the UTF-8 byte length of every character (`csize`) and
models byte-index slicing as a partial operation: slicing at an index that is
not a character boundary (or out of range) panics in Rust, which the model
renders as `none`.  Functions that can panic therefore return an `Option`;
`none` means the Rust code aborts by panic.

Machine integers are modelled as `Nat`.  The source sums
`(n as u128) * 10u128.pow(i)` with `u128` arithmetic; in release builds every
`u128` multiplication/addition/pow wraps modulo `2^128`, and since reduction
mod `2^128` is a ring homomorphism the whole wrapped sum equals the exact sum
reduced `% 2^128`, which is how it is written below (`checkDigitsSumU128`).
-/

deriving instance DecidableEq for Except

namespace Iso11649

/-- Characters of a Lean string literal, used to write Rust string literals. -/
def chars (s : String) : List Char := s.data

/-- UTF-8 encoded byte length of a character, as Rust `char::len_utf8`. -/
def csize (c : Char) : Nat :=
  if c.toNat < 0x80 then 1
  else if c.toNat < 0x800 then 2
  else if c.toNat < 0x10000 then 3
  else 4

/-- Byte length of a string, as Rust `str::len`. -/
def utf8Len (s : List Char) : Nat := (s.map csize).sum

/-- Split a string at byte index `n`, as Rust slicing `[..n]` / `[n..]` does.
Returns `none` exactly when Rust would panic: `n` is out of range or falls
inside a multi-byte character (not a char boundary). -/
def byteSplitAt (n : Nat) : List Char → Option (List Char × List Char)
  | [] => if n = 0 then some ([], []) else none
  | c :: t =>
    if n = 0 then some ([], c :: t)
    else if csize c ≤ n then
      (byteSplitAt (n - csize c) t).map (fun p => (c :: p.1, p.2))
    else none

/-- `RfCreditorReference::convert_electronic`: `reference.replace(' ', "")`,
removing every space character. -/
def convert_electronic (reference : List Char) : List Char :=
  reference.filter (fun c => c != ' ')

/-- The character test used in `check_reference`:
`('0'..='9').contains(&c) || ('A'..='Z').contains(&c) || ('a'..='z').contains(&c)`. -/
def validRefChar (c : Char) : Bool :=
  ('0' ≤ c && c ≤ '9') || ('A' ≤ c && c ≤ 'Z') || ('a' ≤ c && c ≤ 'z')

/-- `ParseError` from `src/parse_error.rs`; each variant carries a `String`. -/
inductive ParseError where
  | InvalidCharacter (m : List Char)
  | InvalidChecksum (m : List Char)
  | InvalidFormat (m : List Char)
  | InvalidIdentifier (m : List Char)
deriving DecidableEq, Repr

/-- The `RfCreditorReference` struct: checksum digits (`u8`) and the
print-formatted creditor reference string. -/
structure RfCreditorReference where
  checksum : Nat
  creditor_reference : List Char
deriving DecidableEq, Repr

/-- `RfCreditorReference::check_reference`.  `none` models a panic (byte index
2 or 4 not a char boundary of the normalized string).  The checks, in source
order: length in `(4, 25]` (bytes), first two bytes `"RF"`, every character
from byte 4 on alphanumeric. -/
def check_reference (reference : List Char) : Option (Except ParseError Unit) :=
  if ¬(utf8Len (convert_electronic reference) > 4 ∧
        utf8Len (convert_electronic reference) ≤ 25) then
    some (.error (.InvalidFormat (convert_electronic reference)))
  else
    match byteSplitAt 2 (convert_electronic reference) with
    | none => none
    | some (p, _) =>
      if p ≠ chars "RF" then
        some (.error (.InvalidIdentifier (convert_electronic reference)))
      else
        match byteSplitAt 4 (convert_electronic reference) with
        | none => none
        | some (_, body) =>
          if body.any (fun c => ! validRefChar c) then
            some (.error (.InvalidCharacter (convert_electronic reference)))
          else some (.ok ())

/-- Per-character digit expansion used by `gen_check_digits`.  The source
constants are `DIGIT_CONVERT_NUMBER = -48`, `DIGIT_CONVERT_UPCASE = -55`,
`DIGIT_CONVERT_LOWCASE = -87`; `i8` division on the nonnegative `n` agrees
with `Nat` division. -/
def digitsOfChar (c : Char) : Option (List Nat) :=
  if '0' ≤ c ∧ c ≤ '9' then some [c.toNat - 48]
  else if 'A' ≤ c ∧ c ≤ 'Z' then
    some [(c.toNat - 55) / 10, c.toNat - 55 - (c.toNat - 55) / 10 * 10]
  else if 'a' ≤ c ∧ c ≤ 'z' then
    some [(c.toNat - 87) / 10, c.toNat - 87 - (c.toNat - 87) / 10 * 10]
  else none

/-- `RfCreditorReference::gen_check_digits`: map the body
(`electronic_reference[4..]`) then the prefix (`electronic_reference[0..4]`)
through `digitsOfChar`; any unmapped character yields
`InvalidCharacter(electronic_reference)`.  `none` models the panic when byte 4
is not a char boundary. -/
def gen_check_digits (electronic_reference : List Char) :
    Option (Except ParseError (List Nat)) :=
  match byteSplitAt 4 electronic_reference with
  | none => none
  | some (pre, body) =>
    if (body ++ pre).any (fun c => (digitsOfChar c).isNone) then
      some (.error (.InvalidCharacter electronic_reference))
    else some (.ok ((body ++ pre).flatMap (fun c => (digitsOfChar c).getD [])))

/-- Exact positional value of a check-digit sequence:
`check_digits.iter().rev().enumerate().map(|(i, n)| n * 10^i).sum()`. -/
def checkDigitsValue (check_digits : List Nat) : Nat :=
  (check_digits.reverse.enum.map (fun p => p.2 * 10 ^ p.1)).sum

/-- The `u128` modulus. -/
def U128 : Nat := 2 ^ 128

/-- The value actually computed by the source's `u128` sum
`check_digits.iter().rev().enumerate().map(|(i, &n)| (n as u128) * 10u128.pow(i as u32)).sum::<u128>()`:
in release builds every `u128` operation wraps mod `2^128`, so the whole sum
is the exact value reduced `% 2^128` (in debug builds the first overflowing
`pow`/`mul`/`add` panics instead). -/
def checkDigitsSumU128 (check_digits : List Nat) : Nat :=
  checkDigitsValue check_digits % U128

/-- `RfCreditorReference::gen_checksum`: `98 - (sum % 97)` (the
`checked_sub`/`u8::try_from` unwraps never fail since `sum % 97 ≤ 96 < 98 ≤ 255`),
plus its two decimal characters `checksum / 10 + 48` and
`checksum - checksum / 10 * 10 + 48`. -/
def gen_checksum (check_digits : List Nat) : Nat × (Char × Char) :=
  let checksum := 98 - checkDigitsSumU128 check_digits % 97
  (checksum,
    (Char.ofNat (checksum / 10 + 48), Char.ofNat (checksum - checksum / 10 * 10 + 48)))

/-- `RfCreditorReference::is_valid`: the (wrapped) sum mod 97 equals 1
(the `u8::try_from` unwrap never fails since `sum % 97 ≤ 96 < 256`). -/
def is_valid (check_digits : List Nat) : Bool :=
  checkDigitsSumU128 check_digits % 97 == 1

/-- Rust `u8::from_str` digit loop on the characters after any sign: each
character must be a decimal digit (`InvalidDigit` otherwise, whose `Display`
is "invalid digit found in string"); the accumulated value must stay `≤ 255`
(`PosOverflow`, "number too large to fit in target type"). -/
def u8Digits (acc : Nat) : List Char → Except (List Char) Nat
  | [] => .ok acc
  | c :: t =>
    if '0' ≤ c ∧ c ≤ '9' then
      let v := acc * 10 + (c.toNat - 48)
      if v > 255 then .error (chars "number too large to fit in target type")
      else u8Digits v t
    else .error (chars "invalid digit found in string")

/-- Rust `str::parse::<u8>`: empty input is `Empty`
("cannot parse integer from empty string"); a lone sign is `InvalidDigit`; a
leading `'+'` is skipped; `'-'` on the unsigned type falls through to the
digit loop, which rejects it; then the digit loop runs.  The error value is
the `ParseIntError`'s `Display` string, since `parse_str` stores
`e.to_string()`. -/
def u8FromStr (s : List Char) : Except (List Char) Nat :=
  match s with
  | [] => .error (chars "cannot parse integer from empty string")
  | c :: rest =>
    if (c = '+' ∨ c = '-') ∧ rest = [] then .error (chars "invalid digit found in string")
    else if c = '+' then u8Digits 0 rest
    else u8Digits 0 (c :: rest)

/-- The `format!("{:02}", checksum)` rendering.  Every checksum in the
program is `≤ 99` (parsed from a 2-byte slice, or `98 - r` with `r ≤ 96`),
and `{:02}` zero-pads such a value to exactly the two decimal digits below. -/
def pad2 (n : Nat) : List Char :=
  [Char.ofNat (n / 10 + 48), Char.ofNat (n % 10 + 48)]

/-- The grouping in `parse_str`:
`reference[4..].chars().enumerate().flat_map(|(i, c)| if i != 0 && i % 4 == 0 { vec![' ', c] } else { vec![c] })`. -/
def group4 (body : List Char) : List Char :=
  (body.enum.map (fun p => if p.1 ≠ 0 ∧ p.1 % 4 = 0 then [' ', p.2] else [p.2])).flatten

/-- The part of `RfCreditorReference::parse_str` after `check_reference`
succeeded, applied to the normalized string
`reference = convert_electronic(reference)`: parse bytes `[2..4]` as `u8`
(failure: `InvalidChecksum(e.to_string())`), run `gen_check_digits` (its error
propagates via `?`), test `is_valid`, and on success assemble
`format!("{}{:02} {}", IDENTIFIER, checksum, four_elemented_ref)`; otherwise
`InvalidChecksum(reference)`. -/
def parseAfterCheck (r : List Char) : Option (Except ParseError RfCreditorReference) :=
  match byteSplitAt 2 r with
  | none => none
  | some (_, rest) =>
    match byteSplitAt 2 rest with
    | none => none
    | some (slot, _) =>
      match u8FromStr slot with
      | .error msg => some (.error (.InvalidChecksum msg))
      | .ok checksum =>
        match gen_check_digits r with
        | none => none
        | some (.error e) => some (.error e)
        | some (.ok check_digits) =>
          if is_valid check_digits then
            match byteSplitAt 4 r with
            | none => none
            | some (_, body) =>
              some (.ok ⟨checksum, chars "RF" ++ pad2 checksum ++ [' '] ++ group4 body⟩)
          else some (.error (.InvalidChecksum r))

/-- `RfCreditorReference::parse_str`: `check_reference(reference)?`, then the
rest of the function on `convert_electronic(reference)`.  `none` models a
panic. -/
def parse_str (reference : List Char) : Option (Except ParseError RfCreditorReference) :=
  match check_reference reference with
  | none => none
  | some (.error e) => some (.error e)
  | some (.ok _) => parseAfterCheck (convert_electronic reference)

/-- `FromStr::from_str` just delegates to `parse_str`. -/
def from_str (s : List Char) : Option (Except ParseError RfCreditorReference) :=
  parse_str s

/-- `RfCreditorReference::to_electronic_string`:
`convert_electronic(&self.creditor_reference)`. -/
def to_electronic_string (self : RfCreditorReference) : List Char :=
  convert_electronic self.creditor_reference

/-- The `electronic_reference` selection at the top of
`RfCreditorReference::try_new`.  The conditions test the *raw* `reference`:
its byte length against `GEN_PREFIX.len() = 4` resp. `IDENTIFIER.len() = 2`,
and `str::starts_with`, i.e. a byte-prefix test, which for the ASCII patterns
`"RF00"` / `"RF"` coincides with the character-prefix test used here.  The
second branch slices the normalized string at byte 2 (always a boundary there,
since the raw string starts with the bytes `"RF"`). -/
def tryNewElectronic (reference : List Char) : Option (List Char) :=
  if utf8Len reference > 4 ∧ (chars "RF00").isPrefixOf reference then
    some (convert_electronic reference)
  else if utf8Len reference > 2 ∧ (chars "RF").isPrefixOf reference then
    (byteSplitAt 2 (convert_electronic reference)).map (fun p => chars "RF00" ++ p.2)
  else
    some (chars "RF00" ++ convert_electronic reference)

/-- `String::replace_range(2..4, repl)` on the electronic reference, as a
byte-index operation (panic = `none` when 2 or 4 is not a boundary). -/
def replaceRange24 (s repl : List Char) : Option (List Char) :=
  match byteSplitAt 2 s with
  | none => none
  | some (a, rest) =>
    match byteSplitAt 2 rest with
    | none => none
    | some (_, c) => some (a ++ repl ++ c)

/-- `RfCreditorReference::try_new`: select the starting electronic form (raw
prefix tests), `check_reference` it, compute
`gen_checksum(gen_check_digits(..)?)`, substitute the two checksum characters
into bytes `2..4`, and delegate to `parse_str`. -/
def try_new (reference : List Char) : Option (Except ParseError RfCreditorReference) :=
  match tryNewElectronic reference with
  | none => none
  | some electronic_reference =>
    match check_reference electronic_reference with
    | none => none
    | some (.error e) => some (.error e)
    | some (.ok _) =>
      match gen_check_digits electronic_reference with
      | none => none
      | some (.error e) => some (.error e)
      | some (.ok ds) =>
        match replaceRange24 electronic_reference
            [(gen_checksum ds).2.1, (gen_checksum ds).2.2] with
        | none => none
        | some substituted => parse_str substituted

/-- `RfCreditorReference::new`: `Self::try_new(reference).unwrap()`; any error
or panic aborts (`none`). -/
def new (reference : List Char) : Option RfCreditorReference :=
  match try_new reference with
  | some (.ok r) => some r
  | _ => none

/-- `From<&RfCreditorReference> for String` (and the owned variant):
`id.creditor_reference.to_string()`. -/
def string_from (id : RfCreditorReference) : List Char :=
  id.creditor_reference

/-- `From<&RfCreditorReference> for &str`: `id.creditor_reference.as_ref()`. -/
def str_from (id : RfCreditorReference) : List Char :=
  id.creditor_reference

/-- `Display for RfCreditorReference`: `f.write_str(&*self.creditor_reference)`. -/
def display_str (self : RfCreditorReference) : List Char :=
  self.creditor_reference

/-- The string carried by a `ParseError`, whichever variant it is. -/
def payload : ParseError → List Char
  | .InvalidCharacter m => m
  | .InvalidChecksum m => m
  | .InvalidFormat m => m
  | .InvalidIdentifier m => m

/-! ## Definitions written from the specification's words, for comparison -/

/-- Format validation as claim C7 words it: three checks over *character*
indices and the character count, first failure winning. -/
def check_reference_charSpec (s : List Char) : Except ParseError Unit :=
  if ¬(4 < s.length ∧ s.length ≤ 25) then .error (.InvalidFormat s)
  else if s.take 2 ≠ chars "RF" then .error (.InvalidIdentifier s)
  else if (s.drop 4).any (fun c => ¬ validRefChar c) then .error (.InvalidCharacter s)
  else .ok ()

/-- Digit expansion of one character as claim C8 words it: a decimal digit
maps to its value; a letter maps case-insensitively to
`(ord(letter) - ord(A)) + 10` and emits its tens digit then its ones digit.
Characters outside `[0-9A-Za-z]` are excluded by the claim's hypotheses and
map to `[]` here. -/
def claimCharDigits (c : Char) : List Nat :=
  if '0' ≤ c ∧ c ≤ '9' then [c.toNat - 48]
  else if 'A' ≤ c ∧ c ≤ 'Z' then [(c.toNat - 65 + 10) / 10, (c.toNat - 65 + 10) % 10]
  else if 'a' ≤ c ∧ c ≤ 'z' then [(c.toNat - 97 + 10) / 10, (c.toNat - 97 + 10) % 10]
  else []

/-- Digit sequence of a reference as claim C8 words it: body characters
(index ≥ 4) in order, then the 4-character prefix (indices 0-3) in order. -/
def claimDigits (s : List Char) : List Nat :=
  (s.drop 4 ++ s.take 4).flatMap claimCharDigits

/-- Chunks of four characters, last chunk possibly shorter (claim C10). -/
def chunks4 : List Char → List (List Char)
  | [] => []
  | c :: t => (c :: t).take 4 :: chunks4 (t.drop 3)
termination_by l => l.length
decreasing_by
  simp only [List.length_drop, List.length_cons]
  omega

/-- Chunks joined by single space separators (claim C10). -/
def joinSp : List (List Char) → List Char
  | [] => []
  | [a] => a
  | a :: b :: t => a ++ ' ' :: joinSp (b :: t)

/-- Index-carrying form of `group4`, for reasoning by induction. -/
def group4Aux : Nat → List Char → List Char
  | _, [] => []
  | i, c :: t => (if i ≠ 0 ∧ i % 4 = 0 then [' ', c] else [c]) ++ group4Aux (i + 1) t

/-! ## Helper lemmas -/

theorem charLe_iff {a b : Char} : a ≤ b ↔ a.toNat ≤ b.toNat := by
  simp only [Char.le_def, UInt32.le_def, BitVec.le_def]
  exact Iff.rfl

theorem validRefChar_toNat {c : Char} (h : validRefChar c = true) :
    48 ≤ c.toNat ∧ c.toNat ≤ 122 := by
  unfold validRefChar at h
  simp only [Bool.or_eq_true, Bool.and_eq_true, decide_eq_true_eq] at h
  rcases h with (⟨h1, h2⟩ | ⟨h1, h2⟩) | ⟨h1, h2⟩ <;>
    rw [charLe_iff] at h1 h2 <;>
    simp only [show ('0').toNat = 48 from rfl, show ('9').toNat = 57 from rfl,
      show ('A').toNat = 65 from rfl, show ('Z').toNat = 90 from rfl,
      show ('a').toNat = 97 from rfl, show ('z').toNat = 122 from rfl] at h1 h2 <;>
    omega

theorem validRefChar_csize {c : Char} (h : validRefChar c = true) : csize c = 1 := by
  have := validRefChar_toNat h
  unfold csize
  have : c.toNat < 0x80 := by omega
  simp [this]

theorem validRefChar_ne_space {c : Char} (h : validRefChar c = true) : c ≠ ' ' := by
  intro he
  have := validRefChar_toNat h
  rw [he] at this
  simp only [show (' ').toNat = 32 from rfl] at this
  omega

theorem digitsOfChar_isSome_iff {c : Char} :
    (digitsOfChar c).isSome = validRefChar c := by
  unfold digitsOfChar validRefChar
  split_ifs with h1 h2 h3 <;> simp only [Option.isSome_some, Option.isSome_none]
  · simp [h1.1, h1.2]
  · simp [h2.1, h2.2]
  · simp [h3.1, h3.2]
  · symm
    rw [Bool.eq_false_iff]
    intro hcontr
    simp only [Bool.or_eq_true, Bool.and_eq_true, decide_eq_true_eq] at hcontr
    rcases hcontr with (⟨x, y⟩ | ⟨x, y⟩) | ⟨x, y⟩
    · exact h1 ⟨x, y⟩
    · exact h2 ⟨x, y⟩
    · exact h3 ⟨x, y⟩

theorem utf8Len_append (a b : List Char) :
    utf8Len (a ++ b) = utf8Len a + utf8Len b := by
  simp [utf8Len]

theorem utf8Len_ascii {s : List Char} (h : ∀ c ∈ s, csize c = 1) :
    utf8Len s = s.length := by
  induction s with
  | nil => rfl
  | cons c t ih =>
    have hc := h c (by simp)
    have ht := ih (fun x hx => h x (by simp [hx]))
    simp [utf8Len] at ht ⊢
    omega

theorem byteSplitAt_nil (n : Nat) :
    byteSplitAt n ([] : List Char) = if n = 0 then some ([], []) else none := rfl

theorem byteSplitAt_cons (n : Nat) (c : Char) (t : List Char) :
    byteSplitAt n (c :: t) =
      if n = 0 then some ([], c :: t)
      else if csize c ≤ n then
        (byteSplitAt (n - csize c) t).map (fun p => (c :: p.1, p.2))
      else none := rfl

theorem byteSplitAt_some {n : Nat} {s a b : List Char}
    (h : byteSplitAt n s = some (a, b)) : s = a ++ b ∧ utf8Len a = n := by
  induction s generalizing n a b with
  | nil =>
    unfold byteSplitAt at h
    split_ifs at h with h0
    · simp at h
      subst h0
      simp [h.1, h.2, utf8Len]
  | cons c t ih =>
    unfold byteSplitAt at h
    split_ifs at h with h0 h1
    · simp at h
      subst h0
      simp [h.1, h.2, utf8Len]
    · cases hs : byteSplitAt (n - csize c) t with
      | none => rw [hs] at h; simp at h
      | some p =>
        rw [hs] at h
        obtain ⟨p1, p2⟩ := p
        simp at h
        obtain ⟨ht, hlen⟩ := ih hs
        constructor
        · rw [← h.1, ← h.2]
          simp [ht]
        · rw [← h.1]
          simp [utf8Len] at hlen ⊢
          omega

theorem byteSplitAt_append {a : List Char} {k : Nat} (b : List Char) (m : Nat)
    (h : utf8Len a = k) :
    byteSplitAt (k + m) (a ++ b) = (byteSplitAt m b).map (fun p => (a ++ p.1, p.2)) := by
  induction a generalizing k with
  | nil =>
    simp [utf8Len] at h
    subst h
    simp only [Nat.zero_add, List.nil_append]
    cases hs : byteSplitAt m b with
    | none => simp
    | some p => simp
  | cons c t ih =>
    simp only [utf8Len, List.map_cons, List.sum_cons] at h
    have hk : k = csize c + utf8Len t := by rw [← h]; rfl
    subst hk
    have hc1 : csize c + utf8Len t + m ≠ 0 := by
      have : 1 ≤ csize c := by unfold csize; split_ifs <;> omega
      omega
    have harg : csize c + utf8Len t + m - csize c = utf8Len t + m := by omega
    simp only [List.cons_append, byteSplitAt_cons]
    rw [if_neg hc1, if_pos (by omega), harg, ih rfl]
    cases byteSplitAt m b with
    | none => simp
    | some p => simp

theorem byteSplitAt_ascii {s : List Char} (n : Nat) (h : ∀ c ∈ s, csize c = 1) :
    byteSplitAt n s =
      if n ≤ s.length then some (s.take n, s.drop n) else none := by
  induction s generalizing n with
  | nil =>
    unfold byteSplitAt
    by_cases h0 : n = 0 <;> simp [h0]
  | cons c t ih =>
    have hc := h c (by simp)
    unfold byteSplitAt
    by_cases h0 : n = 0
    · simp [h0]
    · rw [if_neg h0, hc, if_pos (by omega)]
      rw [ih (n - 1) (fun x hx => h x (by simp [hx]))]
      by_cases hn : n ≤ t.length + 1
      · rw [if_pos (by omega), if_pos (by simpa using hn)]
        obtain ⟨n', rfl⟩ : ∃ n', n = n' + 1 := ⟨n - 1, by omega⟩
        simp
      · rw [if_neg (by omega), if_neg (by simpa using hn)]
        simp

theorem convert_electronic_idem (s : List Char) :
    convert_electronic (convert_electronic s) = convert_electronic s := by
  simp [convert_electronic, List.filter_filter]

theorem convert_electronic_append (a b : List Char) :
    convert_electronic (a ++ b) = convert_electronic a ++ convert_electronic b := by
  simp [convert_electronic]

theorem convert_electronic_eq_self {s : List Char} (h : ∀ c ∈ s, c ≠ ' ') :
    convert_electronic s = s := by
  apply List.filter_eq_self.mpr
  intro a ha
  simpa using h a ha

theorem utf8Len_convert_le (s : List Char) :
    utf8Len (convert_electronic s) ≤ utf8Len s := by
  apply List.Sublist.sum_le_sum
  · exact List.Sublist.map csize (List.filter_sublist s)
  · intro a _
    exact Nat.zero_le a

theorem digitChar_toNat {c : Char} (h1 : '0' ≤ c) (h2 : c ≤ '9') :
    48 ≤ c.toNat ∧ c.toNat ≤ 57 := by
  rw [charLe_iff] at h1 h2
  rw [show ('0').toNat = 48 from rfl] at h1
  rw [show ('9').toNat = 57 from rfl] at h2
  exact ⟨h1, h2⟩

theorem pad2_digits {a b : Nat} (ha : a ≤ 9) (hb : b ≤ 9) :
    pad2 (a * 10 + b) = [Char.ofNat (a + 48), Char.ofNat (b + 48)] := by
  unfold pad2
  have h1 : (a * 10 + b) / 10 = a := by omega
  have h2 : (a * 10 + b) % 10 = b := by omega
  rw [h1, h2]

theorem group4_eq_aux (l : List Char) : group4 l = group4Aux 0 l := by
  have H : ∀ (t : List Char) (k : Nat),
      ((List.enumFrom k t).map
        (fun p => if p.1 ≠ 0 ∧ p.1 % 4 = 0 then [' ', p.2] else [p.2])).flatten
        = group4Aux k t := by
    intro t
    induction t with
    | nil => intro k; rfl
    | cons c t ih =>
      intro k
      simp only [List.enumFrom, List.map_cons, List.flatten_cons, group4Aux, ih]
  exact H l 0

theorem group4Aux_congr (t : List Char) :
    ∀ i j, i % 4 = j % 4 → (i = 0 ↔ j = 0) → group4Aux i t = group4Aux j t := by
  induction t with
  | nil => intro i j _ _; rfl
  | cons c t ih =>
    intro i j hmod hz
    unfold group4Aux
    have hcond : (i ≠ 0 ∧ i % 4 = 0) ↔ (j ≠ 0 ∧ j % 4 = 0) := by
      constructor
      · rintro ⟨a, b⟩; exact ⟨fun hj => a (hz.mpr hj), by omega⟩
      · rintro ⟨a, b⟩; exact ⟨fun hi => a (hz.mp hi), by omega⟩
    rw [ih (i + 1) (j + 1) (by omega) (by omega)]
    by_cases h : i ≠ 0 ∧ i % 4 = 0
    · rw [if_pos h, if_pos (hcond.mp h)]
    · rw [if_neg h, if_neg (fun hh => h (hcond.mpr hh))]

theorem group4Aux_zero_step (l : List Char) :
    group4Aux 0 l =
      l.take 4 ++ (if l.drop 4 = [] then [] else ' ' :: group4Aux 0 (l.drop 4)) := by
  have key : ∀ t : List Char, group4Aux 4 t = if t = [] then [] else ' ' :: group4Aux 0 t := by
    intro t
    cases t with
    | nil => rfl
    | cons e t' =>
      simp only [group4Aux, List.cons_ne_self, if_neg]
      rw [group4Aux_congr t' 5 1 (by omega) (by omega)]
      simp [group4Aux]
  rcases l with _ | ⟨a, _ | ⟨b, _ | ⟨c, _ | ⟨d, t⟩⟩⟩⟩
  · rfl
  · simp [group4Aux]
  · simp [group4Aux]
  · simp [group4Aux]
  · simp only [group4Aux, List.take_succ_cons, List.take_zero, List.drop_succ_cons,
      List.drop_zero]
    rw [key t]
    simp

theorem chunks4_nil : chunks4 [] = [] := by
  rw [chunks4]

theorem chunks4_cons_eq (l : List Char) (h : l ≠ []) :
    chunks4 l = l.take 4 :: chunks4 (l.drop 4) := by
  cases l with
  | nil => exact absurd rfl h
  | cons c t => rw [chunks4]; rfl

theorem chunks4_eq_nil_iff (l : List Char) : chunks4 l = [] ↔ l = [] := by
  cases l with
  | nil => simp [chunks4_nil]
  | cons c t => rw [chunks4]; simp

theorem joinSp_cons_cons (a b : List Char) (t : List (List Char)) :
    joinSp (a :: b :: t) = a ++ ' ' :: joinSp (b :: t) := rfl

theorem group4Aux_zero_joinSp (l : List Char) :
    group4Aux 0 l = joinSp (chunks4 l) := by
  have H : ∀ (n : Nat) (t : List Char), t.length ≤ n → group4Aux 0 t = joinSp (chunks4 t) := by
    intro n
    induction n with
    | zero =>
      intro t ht
      have : t = [] := List.length_eq_zero.mp (Nat.le_zero.mp ht)
      subst this
      rw [chunks4_nil]
      rfl
    | succ n ih =>
      intro t ht
      cases t with
      | nil => rw [chunks4_nil]; rfl
      | cons c t' =>
        rw [group4Aux_zero_step, chunks4_cons_eq _ (by simp)]
        by_cases hd : (c :: t').drop 4 = []
        · rw [if_pos hd, hd, chunks4_nil]
          simp [joinSp]
        · rw [if_neg hd]
          have hrec : group4Aux 0 ((c :: t').drop 4) = joinSp (chunks4 ((c :: t').drop 4)) := by
            apply ih
            simp only [List.length_cons] at ht
            simp only [List.length_drop, List.length_cons]
            omega
          rw [hrec]
          obtain ⟨x, xs, hx⟩ : ∃ x xs, chunks4 ((c :: t').drop 4) = x :: xs := by
            rcases he : chunks4 ((c :: t').drop 4) with _ | ⟨x, xs⟩
            · exact absurd ((chunks4_eq_nil_iff _).mp he) hd
            · exact ⟨x, xs, rfl⟩
          rw [hx, joinSp_cons_cons]
  exact H l.length l le_rfl

theorem group4_joinSp_chunks4 (l : List Char) : group4 l = joinSp (chunks4 l) := by
  rw [group4_eq_aux, group4Aux_zero_joinSp]

theorem chunks4_flatten (l : List Char) : (chunks4 l).flatten = l := by
  have H : ∀ (n : Nat) (t : List Char), t.length ≤ n → (chunks4 t).flatten = t := by
    intro n
    induction n with
    | zero =>
      intro t ht
      have : t = [] := List.length_eq_zero.mp (Nat.le_zero.mp ht)
      subst this
      rw [chunks4_nil]
      rfl
    | succ n ih =>
      intro t ht
      cases t with
      | nil => rw [chunks4_nil]; rfl
      | cons c t' =>
        rw [chunks4_cons_eq _ (by simp)]
        simp only [List.flatten_cons]
        simp only [List.length_cons] at ht
        rw [ih ((c :: t').drop 4) (by simp only [List.length_drop, List.length_cons]; omega)]
        exact List.take_append_drop 4 (c :: t')
  exact H l.length l le_rfl

theorem chunks4_mem_shape (l : List Char) :
    ∀ x ∈ chunks4 l, x ≠ [] ∧ x.length ≤ 4 := by
  have H : ∀ (n : Nat) (t : List Char), t.length ≤ n →
      ∀ x ∈ chunks4 t, x ≠ [] ∧ x.length ≤ 4 := by
    intro n
    induction n with
    | zero =>
      intro t ht x hx
      have : t = [] := List.length_eq_zero.mp (Nat.le_zero.mp ht)
      subst this
      simp [chunks4_nil] at hx
    | succ n ih =>
      intro t ht x hx
      cases t with
      | nil => simp [chunks4_nil] at hx
      | cons c t' =>
        rw [chunks4_cons_eq _ (by simp)] at hx
        simp only [List.length_cons] at ht
        rcases List.mem_cons.mp hx with rfl | hx'
        · constructor
          · simp
          · simp only [List.length_take]
            omega
        · exact ih ((c :: t').drop 4)
            (by simp only [List.length_drop, List.length_cons]; omega) x hx'
  exact H l.length l le_rfl

theorem chunks4_dropLast_len (l : List Char) :
    ∀ x ∈ (chunks4 l).dropLast, x.length = 4 := by
  have H : ∀ (n : Nat) (t : List Char), t.length ≤ n →
      ∀ x ∈ (chunks4 t).dropLast, x.length = 4 := by
    intro n
    induction n with
    | zero =>
      intro t ht x hx
      have : t = [] := List.length_eq_zero.mp (Nat.le_zero.mp ht)
      subst this
      simp [chunks4_nil] at hx
    | succ n ih =>
      intro t ht x hx
      cases t with
      | nil => simp [chunks4_nil] at hx
      | cons c t' =>
        rw [chunks4_cons_eq _ (by simp)] at hx
        by_cases hd : (c :: t').drop 4 = []
        · rw [hd, chunks4_nil] at hx
          simp at hx
        · have hlen : 4 < (c :: t').length := by
            by_contra hle
            exact hd (List.drop_eq_nil_of_le (by omega))
          obtain ⟨y, ys, hy⟩ : ∃ y ys, chunks4 ((c :: t').drop 4) = y :: ys := by
            rcases he : chunks4 ((c :: t').drop 4) with _ | ⟨y, ys⟩
            · exact absurd ((chunks4_eq_nil_iff _).mp he) hd
            · exact ⟨y, ys, rfl⟩
          rw [hy] at hx
          rw [List.dropLast_cons_of_ne_nil (by simp)] at hx
          simp only [List.length_cons] at ht
          rcases List.mem_cons.mp hx with rfl | hx'
          · simp only [List.length_take]
            omega
          · rw [← hy] at hx'
            exact ih ((c :: t').drop 4)
              (by simp only [List.length_drop, List.length_cons]; omega) x hx'
  exact H l.length l le_rfl

theorem convert_electronic_group4Aux (l : List Char) :
    ∀ i, convert_electronic (group4Aux i l) = convert_electronic l := by
  induction l with
  | nil => intro i; rfl
  | cons c t ih =>
    intro i
    unfold group4Aux
    rw [show (c :: t) = [c] ++ t from rfl, convert_electronic_append,
      convert_electronic_append, ih (i + 1)]
    congr 1
    by_cases h : i ≠ 0 ∧ i % 4 = 0
    · rw [if_pos h]
      simp [convert_electronic, List.filter]
    · rw [if_neg h]

theorem convert_electronic_group4 {l : List Char} (h : ∀ c ∈ l, c ≠ ' ') :
    convert_electronic (group4 l) = l := by
  rw [group4_eq_aux, convert_electronic_group4Aux l 0, convert_electronic_eq_self h]

theorem u8Digits_nil (acc : Nat) : u8Digits acc [] = .ok acc := rfl

theorem u8Digits_cons (acc : Nat) (c : Char) (t : List Char) :
    u8Digits acc (c :: t) =
      if '0' ≤ c ∧ c ≤ '9' then
        if acc * 10 + (c.toNat - 48) > 255 then
          .error (chars "number too large to fit in target type")
        else u8Digits (acc * 10 + (c.toNat - 48)) t
      else .error (chars "invalid digit found in string") := rfl

theorem u8Digits_ok_two {d1 d2 : Char} {cs : Nat}
    (h : u8Digits 0 [d1, d2] = .ok cs) :
    ('0' ≤ d1 ∧ d1 ≤ '9') ∧ ('0' ≤ d2 ∧ d2 ≤ '9') ∧
      cs = (d1.toNat - 48) * 10 + (d2.toNat - 48) := by
  rw [u8Digits_cons] at h
  by_cases h1 : '0' ≤ d1 ∧ d1 ≤ '9'
  case neg =>
    rw [if_neg h1] at h
    exact absurd h (by simp)
  rw [if_pos h1] at h
  obtain ⟨b1, b2⟩ := digitChar_toNat h1.1 h1.2
  rw [if_neg (by omega)] at h
  rw [u8Digits_cons] at h
  by_cases h2 : '0' ≤ d2 ∧ d2 ≤ '9'
  case neg =>
    rw [if_neg h2] at h
    exact absurd h (by simp)
  rw [if_pos h2] at h
  obtain ⟨b3, b4⟩ := digitChar_toNat h2.1 h2.2
  rw [if_neg (by omega)] at h
  rw [u8Digits_nil] at h
  simp only [Except.ok.injEq] at h
  refine ⟨h1, h2, ?_⟩
  omega

theorem u8FromStr_cons (c : Char) (rest : List Char) :
    u8FromStr (c :: rest) =
      if (c = '+' ∨ c = '-') ∧ rest = [] then .error (chars "invalid digit found in string")
      else if c = '+' then u8Digits 0 rest
      else u8Digits 0 (c :: rest) := rfl

theorem check_reference_ok {s : List Char} (h : check_reference s = some (.ok ())) :
    4 < utf8Len (convert_electronic s) ∧ utf8Len (convert_electronic s) ≤ 25 ∧
      ∃ x q body,
        byteSplitAt 2 (convert_electronic s) = some (chars "RF", x) ∧
        byteSplitAt 4 (convert_electronic s) = some (q, body) ∧
        (∀ c ∈ body, validRefChar c = true) := by
  unfold check_reference at h
  by_cases h1 : utf8Len (convert_electronic s) > 4 ∧ utf8Len (convert_electronic s) ≤ 25
  case neg =>
    rw [if_pos h1] at h
    exact absurd h (by simp)
  rw [if_neg (not_not_intro h1)] at h
  refine ⟨h1.1, h1.2, ?_⟩
  cases h2 : byteSplitAt 2 (convert_electronic s) with
  | none => rw [h2] at h; exact absurd h (by simp)
  | some px =>
    obtain ⟨p, x⟩ := px
    rw [h2] at h
    simp only at h
    by_cases h3 : p = chars "RF"
    case neg =>
      rw [if_pos h3] at h
      exact absurd h (by simp)
    rw [if_neg (not_not_intro h3)] at h
    cases h4 : byteSplitAt 4 (convert_electronic s) with
    | none => rw [h4] at h; exact absurd h (by simp)
    | some qb =>
      obtain ⟨q, body⟩ := qb
      rw [h4] at h
      simp only at h
      by_cases h5 : body.any (fun c => ! validRefChar c) = true
      case pos =>
        rw [if_pos h5] at h
        exact absurd h (by simp)
      rw [if_neg h5] at h
      refine ⟨x, q, body, by rw [h3], rfl, ?_⟩
      intro c hc
      have := List.any_eq_false.mp (Bool.eq_false_iff.mpr h5) c hc
      simpa using this

theorem parse_ok_struct {t : List Char} {r : RfCreditorReference}
    (h : parse_str t = some (.ok r)) :
    ∃ d1 d2 body,
      convert_electronic t = 'R' :: 'F' :: d1 :: d2 :: body ∧
      ('0' ≤ d1 ∧ d1 ≤ '9') ∧ ('0' ≤ d2 ∧ d2 ≤ '9') ∧
      body ≠ [] ∧ (∀ c ∈ body, validRefChar c = true) ∧
      utf8Len (convert_electronic t) ≤ 25 ∧
      r.checksum = (d1.toNat - 48) * 10 + (d2.toNat - 48) ∧
      r.creditor_reference = 'R' :: 'F' :: d1 :: d2 :: ' ' :: group4 body := by
  unfold parse_str at h
  cases hc : check_reference t with
  | none => rw [hc] at h; exact absurd h (by simp)
  | some e =>
    cases e with
    | error e' => rw [hc] at h; simp only at h; exact absurd h (by simp)
    | ok u =>
      obtain rfl : u = () := rfl
      rw [hc] at h
      simp only at h
      obtain ⟨hlen4, hlen25, x, q, body, h2, h4, hbody⟩ := check_reference_ok hc
      obtain ⟨hnx, hn2⟩ := byteSplitAt_some h2
      have h4' : byteSplitAt 4 (chars "RF" ++ x) = some (q, body) := by rw [← hnx]; exact h4
      rw [show (4 : Nat) = 2 + 2 from rfl,
        byteSplitAt_append x 2 (show utf8Len (chars "RF") = 2 from rfl)] at h4'
      obtain ⟨⟨s1, s2⟩, hsx, hqb⟩ := Option.map_eq_some'.mp h4'
      simp only [Prod.mk.injEq] at hqb
      obtain ⟨hq, hb⟩ := hqb
      subst hb
      unfold parseAfterCheck at h
      rw [h2] at h
      simp only at h
      rw [hsx] at h
      simp only at h
      cases hu : u8FromStr s1 with
      | error msg => rw [hu] at h; simp only at h; exact absurd h (by simp)
      | ok cs =>
        rw [hu] at h
        simp only at h
        cases hg : gen_check_digits (convert_electronic t) with
        | none => rw [hg] at h; exact absurd h (by simp)
        | some eds =>
          cases eds with
          | error e'' => rw [hg] at h; simp only at h; exact absurd h (by simp)
          | ok ds =>
            rw [hg] at h
            simp only at h
            by_cases hv : is_valid ds = true
            case neg =>
              rw [if_neg hv] at h
              exact absurd h (by simp)
            rw [if_pos hv] at h
            rw [h4] at h
            simp only [Option.some.injEq, Except.ok.injEq] at h
            subst h
            -- the checksum slot characters are alphanumeric, via gen_check_digits
            unfold gen_check_digits at hg
            rw [h4] at hg
            simp only at hg
            by_cases hany : (s2 ++ q).any (fun c => (digitsOfChar c).isNone) = true
            case pos =>
              rw [if_pos hany] at hg
              exact absurd hg (by simp)
            rw [if_neg hany] at hg
            have hqchars : ∀ c ∈ q, validRefChar c = true := by
              intro c hcq
              have hmem : c ∈ s2 ++ q := by simp [hcq]
              have := List.any_eq_false.mp (Bool.eq_false_iff.mpr hany) c hmem
              rw [← digitsOfChar_isSome_iff]
              cases hD : digitsOfChar c with
              | none => rw [hD] at this; simp at this
              | some v => simp
            have hs1chars : ∀ c ∈ s1, validRefChar c = true := by
              intro c hcs
              exact hqchars c (by rw [← hq]; simp [hcs])
            obtain ⟨hxdec, hs1len⟩ := byteSplitAt_some hsx
            have hs1ascii : ∀ c ∈ s1, csize c = 1 :=
              fun c hcs => validRefChar_csize (hs1chars c hcs)
            have hs1two : s1.length = 2 := by
              rw [← utf8Len_ascii hs1ascii]
              exact hs1len
            obtain ⟨d1, d2, rfl⟩ := List.length_eq_two.mp hs1two
            have hd1ne : d1 ≠ '+' := by
              intro he
              have := validRefChar_toNat (hs1chars d1 (by simp))
              rw [he] at this
              simp only [show ('+').toNat = 43 from rfl] at this
              omega
            rw [u8FromStr_cons, if_neg (by simp), if_neg hd1ne] at hu
            obtain ⟨hdig1, hdig2, hcs⟩ := u8Digits_ok_two hu
            refine ⟨d1, d2, s2, ?_, hdig1, hdig2, ?_, hbody, hlen25, ?_, ?_⟩
            · rw [hnx, hxdec]
              rfl
            · intro hbe
              subst hbe
              rw [hnx, hxdec, List.append_nil, utf8Len_append, hs1len] at hlen4
              simp only [show utf8Len (chars "RF") = 2 from rfl] at hlen4
              omega
            · exact hcs
            · show chars "RF" ++ pad2 cs ++ [' '] ++ group4 s2 = _
              rw [hcs]
              have ha : d1.toNat - 48 ≤ 9 := by
                obtain ⟨u1, u2⟩ := digitChar_toNat hdig1.1 hdig1.2
                omega
              have hb9 : d2.toNat - 48 ≤ 9 := by
                obtain ⟨u1, u2⟩ := digitChar_toNat hdig2.1 hdig2.2
                omega
              rw [pad2_digits ha hb9]
              obtain ⟨u1, _⟩ := digitChar_toNat hdig1.1 hdig1.2
              obtain ⟨u3, _⟩ := digitChar_toNat hdig2.1 hdig2.2
              rw [show d1.toNat - 48 + 48 = d1.toNat by omega,
                show d2.toNat - 48 + 48 = d2.toNat by omega,
                Char.ofNat_toNat, Char.ofNat_toNat]
              rfl

theorem pad2_of_digits {d1 d2 : Char} (h1 : '0' ≤ d1 ∧ d1 ≤ '9')
    (h2 : '0' ≤ d2 ∧ d2 ≤ '9') :
    pad2 ((d1.toNat - 48) * 10 + (d2.toNat - 48)) = [d1, d2] := by
  obtain ⟨u1, u2⟩ := digitChar_toNat h1.1 h1.2
  obtain ⟨u3, u4⟩ := digitChar_toNat h2.1 h2.2
  rw [pad2_digits (by omega) (by omega),
    show d1.toNat - 48 + 48 = d1.toNat by omega,
    show d2.toNat - 48 + 48 = d2.toNat by omega,
    Char.ofNat_toNat, Char.ofNat_toNat]

theorem strip_printable {d1 d2 : Char} {body : List Char}
    (h1 : '0' ≤ d1 ∧ d1 ≤ '9') (h2 : '0' ≤ d2 ∧ d2 ≤ '9')
    (hb : ∀ c ∈ body, c ≠ ' ') :
    convert_electronic ('R' :: 'F' :: d1 :: d2 :: ' ' :: group4 body)
      = 'R' :: 'F' :: d1 :: d2 :: body := by
  obtain ⟨u1, _⟩ := digitChar_toNat h1.1 h1.2
  obtain ⟨u3, _⟩ := digitChar_toNat h2.1 h2.2
  have hd1 : (d1 != ' ') = true := by
    rw [bne_iff_ne]
    intro he
    rw [he] at u1
    simp only [show (' ').toNat = 32 from rfl] at u1
    omega
  have hd2 : (d2 != ' ') = true := by
    rw [bne_iff_ne]
    intro he
    rw [he] at u3
    simp only [show (' ').toNat = 32 from rfl] at u3
    omega
  show convert_electronic (['R', 'F', d1, d2, ' '] ++ group4 body) = _
  rw [convert_electronic_append, convert_electronic_group4 hb]
  simp [convert_electronic, List.filter, hd1, hd2]

theorem parse_str_convert (s : List Char) :
    parse_str (convert_electronic s) = parse_str s := by
  have hcr : check_reference (convert_electronic s) = check_reference s := by
    unfold check_reference
    rw [convert_electronic_idem]
  unfold parse_str
  rw [hcr, convert_electronic_idem]

theorem parse_ok_reparse {t : List Char} {r : RfCreditorReference}
    (h : parse_str t = some (.ok r)) :
    parse_str r.creditor_reference = some (.ok r) ∧
      parse_str (to_electronic_string r) = some (.ok r) := by
  obtain ⟨d1, d2, body, hn, hdig1, hdig2, hbne, hbody, hlen25, hcs, hcr⟩ :=
    parse_ok_struct h
  have hbodysp : ∀ c ∈ body, c ≠ ' ' := fun c hc => validRefChar_ne_space (hbody c hc)
  have hstrip : convert_electronic r.creditor_reference = convert_electronic t := by
    rw [hcr, hn]
    exact strip_printable hdig1 hdig2 hbodysp
  have h1 : parse_str r.creditor_reference = some (.ok r) := by
    calc parse_str r.creditor_reference
        = parse_str (convert_electronic r.creditor_reference) :=
          (parse_str_convert _).symm
      _ = parse_str (convert_electronic t) := by rw [hstrip]
      _ = parse_str t := parse_str_convert t
      _ = some (.ok r) := h
  refine ⟨h1, ?_⟩
  show parse_str (convert_electronic r.creditor_reference) = some (.ok r)
  rw [parse_str_convert r.creditor_reference]
  exact h1

theorem try_new_ok_parse {s : List Char} {r : RfCreditorReference}
    (h : try_new s = some (.ok r)) : ∃ t, parse_str t = some (.ok r) := by
  unfold try_new at h
  cases h0 : tryNewElectronic s with
  | none => rw [h0] at h; exact absurd h (by simp)
  | some er =>
    rw [h0] at h
    simp only at h
    cases h1 : check_reference er with
    | none => rw [h1] at h; exact absurd h (by simp)
    | some e =>
      cases e with
      | error e1 => rw [h1] at h; simp only at h; exact absurd h (by simp)
      | ok u =>
        rw [h1] at h
        simp only at h
        cases h2 : gen_check_digits er with
        | none => rw [h2] at h; exact absurd h (by simp)
        | some eds =>
          cases eds with
          | error e2 => rw [h2] at h; simp only at h; exact absurd h (by simp)
          | ok ds =>
            rw [h2] at h
            simp only at h
            cases h3 : replaceRange24 er [(gen_checksum ds).2.1, (gen_checksum ds).2.2] with
            | none => rw [h3] at h; exact absurd h (by simp)
            | some sub =>
              rw [h3] at h
              simp only at h
              exact ⟨sub, h⟩

theorem length_le_utf8Len (s : List Char) : s.length ≤ utf8Len s := by
  induction s with
  | nil => simp [utf8Len]
  | cons c t ih =>
    have hc : 1 ≤ csize c := by unfold csize; split_ifs <;> omega
    simp only [List.length_cons, utf8Len, List.map_cons, List.sum_cons] at ih ⊢
    omega

theorem u8Digits_one_err {acc : Nat} {c : Char} {msg : List Char}
    (hacc : acc ≤ 9) (h : u8Digits acc [c] = .error msg) :
    msg = chars "invalid digit found in string" := by
  rw [u8Digits_cons] at h
  by_cases hd : '0' ≤ c ∧ c ≤ '9'
  · obtain ⟨u1, u2⟩ := digitChar_toNat hd.1 hd.2
    rw [if_pos hd, if_neg (by omega), u8Digits_nil] at h
    exact absurd h (by simp)
  · rw [if_neg hd] at h
    simpa using h.symm

theorem u8Digits_two_err {c1 c2 : Char} {msg : List Char}
    (h : u8Digits 0 [c1, c2] = .error msg) :
    msg = chars "invalid digit found in string" := by
  rw [u8Digits_cons] at h
  by_cases hd : '0' ≤ c1 ∧ c1 ≤ '9'
  · obtain ⟨u1, u2⟩ := digitChar_toNat hd.1 hd.2
    rw [if_pos hd, if_neg (by omega)] at h
    exact u8Digits_one_err (by omega) h
  · rw [if_neg hd] at h
    simpa using h.symm

theorem u8FromStr_err_two {slot msg : List Char} (hlen : utf8Len slot = 2)
    (h : u8FromStr slot = .error msg) :
    msg = chars "invalid digit found in string" := by
  have hle : slot.length ≤ 2 := by
    have := length_le_utf8Len slot
    omega
  rcases slot with _ | ⟨c1, _ | ⟨c2, _ | ⟨c3, rest⟩⟩⟩
  · simp [utf8Len] at hlen
  · rw [u8FromStr_cons] at h
    by_cases hs : (c1 = '+' ∨ c1 = '-') ∧ ([] : List Char) = []
    · rw [if_pos hs] at h
      simpa using h.symm
    · have hplus : c1 ≠ '+' := by
        intro he
        exact hs ⟨Or.inl he, rfl⟩
      rw [if_neg hs, if_neg hplus] at h
      exact u8Digits_one_err (by omega) h
  · rw [u8FromStr_cons] at h
    rw [if_neg (by simp)] at h
    by_cases hplus : c1 = '+'
    · rw [if_pos hplus] at h
      exact u8Digits_one_err (by omega) h
    · rw [if_neg hplus] at h
      exact u8Digits_two_err h
  · simp at hle

theorem gen_check_digits_err {n : List Char} {e : ParseError}
    (h : gen_check_digits n = some (.error e)) : e = .InvalidCharacter n := by
  unfold gen_check_digits at h
  cases h4 : byteSplitAt 4 n with
  | none => rw [h4] at h; exact absurd h (by simp)
  | some pb =>
    obtain ⟨pre, body⟩ := pb
    rw [h4] at h
    simp only at h
    by_cases ha : (body ++ pre).any (fun c => (digitsOfChar c).isNone) = true
    · rw [if_pos ha] at h
      simp only [Option.some.injEq, Except.error.injEq] at h
      exact h.symm
    · rw [if_neg ha] at h
      exact absurd h (by simp)

theorem check_reference_err {s : List Char} {e : ParseError}
    (h : check_reference s = some (.error e)) : payload e = convert_electronic s := by
  unfold check_reference at h
  by_cases h1 : utf8Len (convert_electronic s) > 4 ∧ utf8Len (convert_electronic s) ≤ 25
  case neg =>
    rw [if_pos h1] at h
    simp only [Option.some.injEq, Except.error.injEq] at h
    rw [← h]
    rfl
  rw [if_neg (not_not_intro h1)] at h
  cases h2 : byteSplitAt 2 (convert_electronic s) with
  | none => rw [h2] at h; exact absurd h (by simp)
  | some px =>
    obtain ⟨p, x⟩ := px
    rw [h2] at h
    simp only at h
    by_cases h3 : p = chars "RF"
    case neg =>
      rw [if_pos h3] at h
      simp only [Option.some.injEq, Except.error.injEq] at h
      rw [← h]
      rfl
    rw [if_neg (not_not_intro h3)] at h
    cases h4 : byteSplitAt 4 (convert_electronic s) with
    | none => rw [h4] at h; exact absurd h (by simp)
    | some qb =>
      obtain ⟨q, body⟩ := qb
      rw [h4] at h
      simp only at h
      by_cases h5 : body.any (fun c => ! validRefChar c) = true
      · rw [if_pos h5] at h
        simp only [Option.some.injEq, Except.error.injEq] at h
        rw [← h]
        rfl
      · rw [if_neg h5] at h
        exact absurd h (by simp)

theorem toNat_ofNat_small {n : Nat} (h : n ≤ 57) : (Char.ofNat n).toNat = n := by
  unfold Char.ofNat
  split_ifs with hv
  · rfl
  · exact absurd (Or.inl (by omega)) hv

/-! ## Claim theorems -/

/-- C1 (code bug): the checksum arithmetic does NOT equal exact
arbitrary-precision arithmetic on every permitted reference.  The normalized
reference `"RF00" ++ 21 × 'A'` (25 characters, within the permitted lengths)
expands to the 48-digit check sequence below, whose positional value exceeds
`2^128`; the source's `u128` accumulator therefore wraps (release) or panics
in `10u128.pow` (debug), and the computed `mod 97` result (83) differs from
the exact one (51), so `gen_checksum` also differs from the exact
`98 - value mod 97`. -/
theorem c1_u128_overflow_bug :
    gen_check_digits (chars "RF00AAAAAAAAAAAAAAAAAAAAA") =
      some (.ok ((List.replicate 21 [1, 0]).flatten ++ [2, 7, 1, 5, 0, 0])) ∧
    checkDigitsSumU128 ((List.replicate 21 [1, 0]).flatten ++ [2, 7, 1, 5, 0, 0]) % 97 = 83 ∧
    checkDigitsValue ((List.replicate 21 [1, 0]).flatten ++ [2, 7, 1, 5, 0, 0]) % 97 = 51 ∧
    (gen_checksum ((List.replicate 21 [1, 0]).flatten ++ [2, 7, 1, 5, 0, 0])).1 ≠
      98 - checkDigitsValue ((List.replicate 21 [1, 0]).flatten ++ [2, 7, 1, 5, 0, 0]) % 97 := by
  refine ⟨by decide, by decide, by decide, by decide⟩

/-- C2 (code bug): `parse_str` (and `from_str`) does not return a `Result` on
every input: on `"€0000"` the slice `&reference[..2]` falls inside the
three-byte character `'€'` and the Rust code panics (modelled as `none`)
instead of returning an `Err(ParseError)`. -/
theorem c2_parse_str_panics :
    parse_str (chars "€0000") = none ∧ from_str (chars "€0000") = none :=
  ⟨rfl, rfl⟩

/-- C3 counterexample: the checksum is NOT always in `[0, 97)`.  The digit
sequence of `"RF0054"` (generation placeholder for body `"54"`) has value
`54271500 ≡ 0 (mod 97)`, so `gen_checksum` returns `98`, and the generated
reference `RF98 54` parses successfully with checksum field 98. -/
theorem c3_checksum_98_counterexample :
    gen_check_digits (chars "RF0054") = some (.ok [5, 4, 2, 7, 1, 5, 0, 0]) ∧
    (gen_checksum [5, 4, 2, 7, 1, 5, 0, 0]).1 = 98 ∧
    ¬ (gen_checksum [5, 4, 2, 7, 1, 5, 0, 0]).1 < 97 ∧
    try_new (chars "54") = some (.ok ⟨98, chars "RF98 54"⟩) := by
  refine ⟨by decide, by decide, by decide, by decide⟩

/-- C3 (amended): for every check-digit sequence, the checksum derived by
Generate as `98 − (computed value mod 97)` (the computed value being the
sequence's value under the source's 128-bit wrapping arithmetic, see C1) is a
value in `[2, 98]`, and is representable as two zero-padded ASCII decimal
digit characters whose decimal reading equals the checksum. -/
theorem c3_checksum_range (check_digits : List Nat) :
    (gen_checksum check_digits).1 = 98 - checkDigitsSumU128 check_digits % 97 ∧
    2 ≤ (gen_checksum check_digits).1 ∧ (gen_checksum check_digits).1 ≤ 98 ∧
    '0' ≤ (gen_checksum check_digits).2.1 ∧ (gen_checksum check_digits).2.1 ≤ '9' ∧
    '0' ≤ (gen_checksum check_digits).2.2 ∧ (gen_checksum check_digits).2.2 ≤ '9' ∧
    ((gen_checksum check_digits).2.1.toNat - 48) * 10 +
        ((gen_checksum check_digits).2.2.toNat - 48) =
      (gen_checksum check_digits).1 := by
  have hrb : checkDigitsSumU128 check_digits % 97 ≤ 96 :=
    Nat.le_of_lt_succ (Nat.mod_lt _ (by norm_num))
  unfold gen_checksum
  simp only
  constructor
  · trivial
  set cs := 98 - checkDigitsSumU128 check_digits % 97 with hcs
  have hb : 2 ≤ cs ∧ cs ≤ 98 := by omega
  have hq : cs / 10 + 48 ≤ 57 := by omega
  have hr : cs - cs / 10 * 10 + 48 ≤ 57 := by omega
  have ht1 := toNat_ofNat_small hq
  have ht2 := toNat_ofNat_small hr
  refine ⟨hb.1, hb.2, ?_, ?_, ?_, ?_, ?_⟩
  · rw [charLe_iff, ht1, show ('0').toNat = 48 from rfl]; omega
  · rw [charLe_iff, ht1, show ('9').toNat = 57 from rfl]; omega
  · rw [charLe_iff, ht2, show ('0').toNat = 48 from rfl]; omega
  · rw [charLe_iff, ht2, show ('9').toNat = 57 from rfl]; omega
  · rw [ht1, ht2]; omega

/-- C5 counterexample: the `InvalidChecksum` signalled when the characters at
indices 2-3 fail the 2-digit decimal parse does NOT carry the offending input
string: on `"RFXX0"` it carries the `ParseIntError` display text
"invalid digit found in string" instead of the normalized reference. -/
theorem c5_errmsg_counterexample :
    parse_str (chars "RFXX0") =
      some (.error (.InvalidChecksum (chars "invalid digit found in string"))) ∧
    chars "invalid digit found in string" ≠ convert_electronic (chars "RFXX0") := by
  refine ⟨by decide, by decide⟩

/-- C5 (amended): every `ParseError` returned by `parse_str` carries the
offending normalized input string, EXCEPT the `InvalidChecksum` of parse step
3 (checksum slot not a parseable 2-digit number), which carries the integer
parse error message "invalid digit found in string". -/
theorem c5_error_payload (s : List Char) (e : ParseError)
    (h : parse_str s = some (.error e)) :
    payload e = convert_electronic s ∨
      e = .InvalidChecksum (chars "invalid digit found in string") := by
  unfold parse_str at h
  cases hc : check_reference s with
  | none => rw [hc] at h; exact absurd h (by simp)
  | some e0 =>
    cases e0 with
    | error e1 =>
      rw [hc] at h
      simp only [Option.some.injEq, Except.error.injEq] at h
      subst h
      exact Or.inl (check_reference_err hc)
    | ok u =>
      rw [hc] at h
      simp only at h
      obtain ⟨hlen4, hlen25, x, q, body, h2, h4, hbody⟩ := check_reference_ok hc
      obtain ⟨hnx, hn2⟩ := byteSplitAt_some h2
      have h4' : byteSplitAt 4 (chars "RF" ++ x) = some (q, body) := by
        rw [← hnx]; exact h4
      rw [show (4 : Nat) = 2 + 2 from rfl,
        byteSplitAt_append x 2 (show utf8Len (chars "RF") = 2 from rfl)] at h4'
      obtain ⟨⟨s1, s2⟩, hsx, hqb⟩ := Option.map_eq_some'.mp h4'
      unfold parseAfterCheck at h
      rw [h2] at h
      simp only at h
      rw [hsx] at h
      simp only at h
      cases hu : u8FromStr s1 with
      | error msg =>
        rw [hu] at h
        simp only [Option.some.injEq, Except.error.injEq] at h
        subst h
        refine Or.inr ?_
        obtain ⟨_, hs1len⟩ := byteSplitAt_some hsx
        rw [u8FromStr_err_two hs1len hu]
      | ok cs =>
        rw [hu] at h
        simp only at h
        cases hg : gen_check_digits (convert_electronic s) with
        | none => rw [hg] at h; exact absurd h (by simp)
        | some eds =>
          cases eds with
          | error e2 =>
            rw [hg] at h
            simp only [Option.some.injEq, Except.error.injEq] at h
            subst h
            rw [gen_check_digits_err hg]
            exact Or.inl rfl
          | ok ds =>
            rw [hg] at h
            simp only at h
            by_cases hv : is_valid ds = true
            · rw [if_pos hv, h4] at h
              exact absurd h (by simp)
            · rw [if_neg hv] at h
              simp only [Option.some.injEq, Except.error.injEq] at h
              subst h
              exact Or.inl rfl

/-- C5 witness: the amended payload statement applied to the concrete
rejected input `"123456"` (an `InvalidIdentifier`). -/
theorem c5_error_payload_witness :
    payload (.InvalidIdentifier (chars "123456")) = convert_electronic (chars "123456") ∨
      ParseError.InvalidIdentifier (chars "123456") =
        .InvalidChecksum (chars "invalid digit found in string") :=
  c5_error_payload (chars "123456") (.InvalidIdentifier (chars "123456")) (by decide)

/-- C6 (code bug): checksum validation does NOT accept exactly the sequences
whose exact integer value is `≡ 1 (mod 97)`.  The reference
`"RF45" ++ 17 × 'A'` (21 characters) parses successfully — its generated
checksum 45 makes the `u128`-wrapped sum `≡ 1 (mod 97)` — but the exact value
of its 40-digit check sequence is `≡ 71 (mod 97)`, violating the claimed
mod-97 invariant for successfully parsed references (in debug builds the
`pow` overflow panics instead). -/
theorem c6_wrapped_mod97_bug :
    parse_str (chars "RF45AAAAAAAAAAAAAAAAA") =
      some (.ok ⟨45, chars "RF45 AAAA AAAA AAAA AAAA A"⟩) ∧
    try_new (chars "AAAAAAAAAAAAAAAAA") =
      some (.ok ⟨45, chars "RF45 AAAA AAAA AAAA AAAA A"⟩) ∧
    gen_check_digits (chars "RF45AAAAAAAAAAAAAAAAA") =
      some (.ok ((List.replicate 17 [1, 0]).flatten ++ [2, 7, 1, 5, 4, 5])) ∧
    is_valid ((List.replicate 17 [1, 0]).flatten ++ [2, 7, 1, 5, 4, 5]) = true ∧
    checkDigitsValue ((List.replicate 17 [1, 0]).flatten ++ [2, 7, 1, 5, 4, 5]) % 97 = 71 := by
  refine ⟨by decide, by decide, by decide, by decide, by decide⟩

theorem convert_first4 {s : List Char} (h4 : ∀ c ∈ s.take 4, c ≠ ' ') :
    convert_electronic s = s.take 4 ++ convert_electronic (s.drop 4) := by
  conv_lhs => rw [← List.take_append_drop 4 s]
  rw [convert_electronic_append, convert_electronic_eq_self h4]

theorem take_convert_eq {s : List Char} (h4 : ∀ c ∈ s.take 4, c ≠ ' ')
    (hsl : 4 ≤ s.length) {k : Nat} (hk : k ≤ 4) :
    (convert_electronic s).take k = s.take k := by
  rw [convert_first4 h4, List.take_append_eq_append_take, List.take_take]
  have hlen : (s.take 4).length = 4 := by
    rw [List.length_take]
    omega
  rw [hlen, show k - 4 = 0 from by omega, List.take_zero, List.append_nil,
    Nat.min_eq_left hk]

theorem prefix_convert_iff {s p : List Char} (h4 : ∀ c ∈ s.take 4, c ≠ ' ')
    (hsl : 4 ≤ s.length) (hp : p.length ≤ 4) :
    p.isPrefixOf (convert_electronic s) = p.isPrefixOf s := by
  rw [Bool.eq_iff_iff, List.isPrefixOf_iff_prefix, List.isPrefixOf_iff_prefix,
    List.prefix_iff_eq_take, List.prefix_iff_eq_take, take_convert_eq h4 hsl hp]

/-- C4 counterexample: generation is NOT invariant under removing spaces —
the `"RF00"` / `"RF"` case split looks at the raw input.  `"RF 00123"` does
not start with the raw prefix `"RF00"`, so generation re-inserts `"00"` and
builds body `"00123"`; its space-free form `"RF00123"` keeps body `"123"`.
The two results differ (different printable strings). -/
theorem c4_raw_case_split_counterexample :
    try_new (chars "RF 00123") = some (.ok ⟨78, chars "RF78 0012 3"⟩) ∧
    try_new (convert_electronic (chars "RF 00123")) =
      some (.ok ⟨78, chars "RF78 123"⟩) ∧
    try_new (chars "RF 00123") ≠ try_new (convert_electronic (chars "RF 00123")) := by
  refine ⟨by decide, by decide, by decide⟩

/-- C4 (amended): the case split of generation step 1 is decided on the RAW
input (each branch then normalizes), so `try_new s` agrees with
`try_new (convert_electronic s)` whenever the first four characters of `s`
are space-free and the normalized form is longer than 4 bytes — in
particular space-free inputs and inputs whose spaces all come after the
prefix region are interchangeable with their electronic spellings. -/
theorem c4_generate_normalized (s : List Char)
    (h4 : ∀ c ∈ s.take 4, c ≠ ' ')
    (hlen : 4 < utf8Len (convert_electronic s)) :
    try_new s = try_new (convert_electronic s) := by
  have key : tryNewElectronic s = tryNewElectronic (convert_electronic s) := by
    by_cases hsl : s.length ≤ 4
    · rw [convert_electronic_eq_self
        (fun c hc => h4 c (by rw [List.take_of_length_le hsl]; exact hc))]
    push_neg at hsl
    have hsl' : 4 ≤ s.length := by omega
    have hu2 : utf8Len (convert_electronic s) > 4 := hlen
    have hu1 : utf8Len s > 4 := lt_of_lt_of_le hu2 (utf8Len_convert_le s)
    unfold tryNewElectronic
    rw [convert_electronic_idem,
      prefix_convert_iff h4 hsl' (show (chars "RF00").length ≤ 4 by decide),
      prefix_convert_iff h4 hsl' (show (chars "RF").length ≤ 4 by decide)]
    have e1 : (utf8Len s > 4 ∧ (chars "RF00").isPrefixOf s) ↔
        (utf8Len (convert_electronic s) > 4 ∧ (chars "RF00").isPrefixOf s) := by
      constructor <;> (intro hh; exact ⟨by omega, hh.2⟩)
    have e2 : (utf8Len s > 2 ∧ (chars "RF").isPrefixOf s) ↔
        (utf8Len (convert_electronic s) > 2 ∧ (chars "RF").isPrefixOf s) := by
      constructor <;> (intro hh; exact ⟨by omega, hh.2⟩)
    exact if_congr e1 rfl (if_congr e2 rfl rfl)
  unfold try_new
  rw [key]

/-- C4 witness: the amended equivalence applied to `"RF00 123"`. -/
theorem c4_generate_normalized_witness :
    try_new (chars "RF00 123") = try_new (convert_electronic (chars "RF00 123")) :=
  c4_generate_normalized (chars "RF00 123") (by decide) (by decide)

/-- C7 counterexample: the three format checks are byte-indexed, not
character-indexed.  On the normalized 5-character candidate `"RFä@0"` the
claim's character-indexed reading succeeds (characters at index ≥ 4 are just
`'0'`), but the code slices at byte 4 — inside `"ä@0"` — sees `'@'` and
returns `InvalidCharacter`. -/
theorem c7_byteindex_counterexample :
    check_reference_charSpec (chars "RFä@0") = .ok () ∧
    check_reference (chars "RFä@0") =
      some (.error (.InvalidCharacter (chars "RFä@0"))) := by
  refine ⟨by decide, by decide⟩

/-- C7 (amended): on space-free ASCII candidates the three checks behave
exactly as claimed, character positions and byte positions coinciding:
length in `(4, 25]` else `InvalidFormat`, first two characters `"RF"` else
`InvalidIdentifier`, every character from index 4 on alphanumeric else
`InvalidCharacter` citing the full string, first failure winning, and a
candidate passing all three yields success.  (On non-ASCII candidates the
positions are UTF-8 byte offsets and the function can panic, see C2.) -/
theorem c7_check_reference_ascii (s : List Char)
    (hsp : ∀ c ∈ s, c ≠ ' ') (hascii : ∀ c ∈ s, c.toNat < 128) :
    check_reference s =
      if ¬(4 < s.length ∧ s.length ≤ 25) then some (.error (.InvalidFormat s))
      else if s.take 2 ≠ chars "RF" then some (.error (.InvalidIdentifier s))
      else if (s.drop 4).any (fun c => ! validRefChar c) then
        some (.error (.InvalidCharacter s))
      else some (.ok ()) := by
  have hcs : ∀ c ∈ s, csize c = 1 := by
    intro c hc
    unfold csize
    rw [if_pos (hascii c hc)]
  have hlen := utf8Len_ascii hcs
  have hid := convert_electronic_eq_self hsp
  unfold check_reference
  rw [hid, hlen, byteSplitAt_ascii 2 hcs, byteSplitAt_ascii 4 hcs]
  by_cases h1 : 4 < s.length ∧ s.length ≤ 25
  case neg =>
    rw [if_pos (show ¬(s.length > 4 ∧ s.length ≤ 25) from h1),
      if_pos (show ¬(4 < s.length ∧ s.length ≤ 25) from h1)]
  case pos =>
    rw [if_neg (not_not_intro (show s.length > 4 ∧ s.length ≤ 25 from h1)),
      if_neg (not_not_intro h1),
      if_pos (show 2 ≤ s.length by omega), if_pos (show 4 ≤ s.length by omega)]

/-- C7 witness: the amended characterization applied to the valid reference
`"RF18539007547034"`. -/
theorem c7_check_reference_ascii_witness :
    check_reference (chars "RF18539007547034") = some (.ok ()) :=
  (c7_check_reference_ascii (chars "RF18539007547034")
    (by decide) (by decide)).trans (by decide)

theorem digitsOfChar_eq_claim {c : Char} (h : validRefChar c = true) :
    (digitsOfChar c).getD [] = claimCharDigits c := by
  unfold digitsOfChar claimCharDigits
  by_cases h1 : '0' ≤ c ∧ c ≤ '9'
  · rw [if_pos h1, if_pos h1]
    rfl
  rw [if_neg h1, if_neg h1]
  by_cases h2 : 'A' ≤ c ∧ c ≤ 'Z'
  · rw [if_pos h2, if_pos h2]
    have hu : 65 ≤ c.toNat := by
      have := charLe_iff.mp h2.1
      rw [show ('A').toNat = 65 from rfl] at this
      exact this
    simp only [Option.getD_some, List.cons.injEq, and_true]
    constructor
    · omega
    · omega
  rw [if_neg h2, if_neg h2]
  by_cases h3 : 'a' ≤ c ∧ c ≤ 'z'
  · rw [if_pos h3, if_pos h3]
    have hu : 97 ≤ c.toNat := by
      have := charLe_iff.mp h3.1
      rw [show ('a').toNat = 97 from rfl] at this
      exact this
    simp only [Option.getD_some, List.cons.injEq, and_true]
    constructor
    · omega
    · omega
  exfalso
  simp only [validRefChar, Bool.or_eq_true, Bool.and_eq_true, decide_eq_true_eq] at h
  rcases h with (⟨x, y⟩ | ⟨x, y⟩) | ⟨x, y⟩
  · exact h1 ⟨x, y⟩
  · exact h2 ⟨x, y⟩
  · exact h3 ⟨x, y⟩

/-- C8 counterexample: a character outside `[0-9A-Za-z]` does NOT always make
`gen_check_digits` return `InvalidCharacter`: on the normalized 5-character
string `"RF€00"` byte offset 4 falls inside the three-byte `'€'`, so the
byte-index split panics (modelled as `none`) instead of returning an error. -/
theorem c8_panic_counterexample :
    (∃ c ∈ chars "RF€00", validRefChar c = false) ∧
    4 < (chars "RF€00").length ∧
    gen_check_digits (chars "RF€00") = none := by
  refine ⟨by decide, by decide, rfl⟩

/-- C8 (amended): for every string of more than 4 characters whose characters
are all in `[0-9A-Za-z]`, the digit mapper emits, for the body characters
(index ≥ 4) in order followed by the 4-character prefix (indices 0-3) in
order, the single digit value of each decimal digit and the two digits
(tens, then ones) of `(ord(letter) − ord('A')) + 10` case-insensitively for
each letter; and on an ASCII string containing a character outside
`[0-9A-Za-z]` it returns `InvalidCharacter` citing the full string.  (On
non-ASCII strings the split is at byte offset 4 and can panic, see the
counterexample.) -/
theorem c8_gen_check_digits_spec (s : List Char) (h4 : 4 < s.length) :
    ((∀ c ∈ s, validRefChar c = true) →
      gen_check_digits s = some (.ok (claimDigits s))) ∧
    ((∀ c ∈ s, c.toNat < 128) → ¬(∀ c ∈ s, validRefChar c = true) →
      gen_check_digits s = some (.error (.InvalidCharacter s))) := by
  constructor
  · intro hall
    have hcs : ∀ c ∈ s, csize c = 1 := fun c hc => validRefChar_csize (hall c hc)
    unfold gen_check_digits
    rw [byteSplitAt_ascii 4 hcs, if_pos (show 4 ≤ s.length by omega)]
    simp only
    have hmemall : ∀ c ∈ s.drop 4 ++ s.take 4, validRefChar c = true := by
      intro c hc
      rcases List.mem_append.mp hc with hc | hc
      · exact hall c (List.mem_of_mem_drop hc)
      · exact hall c (List.mem_of_mem_take hc)
    have hnone : (s.drop 4 ++ s.take 4).any (fun c => (digitsOfChar c).isNone) = false := by
      rw [List.any_eq_false]
      intro c hc
      have hv := hmemall c hc
      rw [← digitsOfChar_isSome_iff] at hv
      cases hD : digitsOfChar c with
      | none => rw [hD] at hv; simp at hv
      | some v => simp
    rw [if_neg (by rw [hnone]; simp)]
    unfold claimDigits
    rw [List.flatMap_congr (fun c hc => digitsOfChar_eq_claim (hmemall c hc))]
  · intro hascii hbad
    have hcs : ∀ c ∈ s, csize c = 1 := by
      intro c hc
      unfold csize
      rw [if_pos (hascii c hc)]
    unfold gen_check_digits
    rw [byteSplitAt_ascii 4 hcs, if_pos (show 4 ≤ s.length by omega)]
    simp only
    push_neg at hbad
    obtain ⟨c0, hc0, hbad0⟩ := hbad
    have hmem : c0 ∈ s.drop 4 ++ s.take 4 := by
      rw [← List.take_append_drop 4 s] at hc0
      rw [List.mem_append]
      rcases List.mem_append.mp hc0 with hc | hc
      · exact Or.inr hc
      · exact Or.inl hc
    have hany : (s.drop 4 ++ s.take 4).any (fun c => (digitsOfChar c).isNone) = true := by
      rw [List.any_eq_true]
      refine ⟨c0, hmem, ?_⟩
      cases hD : digitsOfChar c0 with
      | none => simp
      | some v =>
        exfalso
        apply hbad0
        rw [← digitsOfChar_isSome_iff, hD]
        rfl

    rw [if_pos hany]

/-- C8 witness: the digit expansion of `"RF18AB"`, matching the crate's own
unit test (`A` emits 1,0; `B` emits 1,1; then prefix `R`,`F`,`1`,`8`). -/
theorem c8_gen_check_digits_spec_witness :
    gen_check_digits (chars "RF18AB") =
      some (.ok [1, 0, 1, 1, 2, 7, 1, 5, 1, 8]) :=
  ((c8_gen_check_digits_spec (chars "RF18AB") (by decide)).1 (by decide)).trans
    (by decide)

/-- C9: whenever generation succeeds with reference `r`, parsing `r`'s own
electronic string and its printable string both succeed and return `r`
itself — in particular the reparsed reference has the identical checksum and
identical printable string, so generate and parse never disagree. -/
theorem c9_generate_parse_roundtrip (s : List Char) (r : RfCreditorReference)
    (h : try_new s = some (.ok r)) :
    parse_str (to_electronic_string r) = some (.ok r) ∧
      parse_str r.creditor_reference = some (.ok r) := by
  obtain ⟨t, ht⟩ := try_new_ok_parse h
  obtain ⟨h1, h2⟩ := parse_ok_reparse ht
  exact ⟨h2, h1⟩

/-- C9 witness: the round trip at body `"539007547034"`. -/
theorem c9_generate_parse_roundtrip_witness :
    parse_str (to_electronic_string ⟨18, chars "RF18 5390 0754 7034"⟩) =
      some (.ok ⟨18, chars "RF18 5390 0754 7034"⟩) ∧
    parse_str (chars "RF18 5390 0754 7034") =
      some (.ok ⟨18, chars "RF18 5390 0754 7034"⟩) :=
  c9_generate_parse_roundtrip (chars "539007547034")
    ⟨18, chars "RF18 5390 0754 7034"⟩ (by decide)

/-- C10: every value constructed by `parse_str`, `try_new` or `new` stores
`"RF"`, the checksum as two zero-padded decimal digits, a space, and the body
grouped into 4-character chunks joined by single spaces (last chunk possibly
shorter); `to_electronic_string` is the printable string with spaces removed,
equal to `"RF" ++ checksum ++ body`; and the `String`, `&str` and `Display`
conversions all yield exactly the printable string. -/
theorem c10_constructed_invariant (s : List Char) (r : RfCreditorReference)
    (h : parse_str s = some (.ok r) ∨ try_new s = some (.ok r) ∨ new s = some r) :
    ∃ body,
      r.creditor_reference =
        chars "RF" ++ pad2 r.checksum ++ [' '] ++ joinSp (chunks4 body) ∧
      r.checksum < 100 ∧
      (chunks4 body).flatten = body ∧
      (∀ x ∈ chunks4 body, x ≠ [] ∧ x.length ≤ 4) ∧
      (∀ x ∈ (chunks4 body).dropLast, x.length = 4) ∧
      to_electronic_string r = chars "RF" ++ pad2 r.checksum ++ body ∧
      to_electronic_string r = convert_electronic r.creditor_reference ∧
      string_from r = r.creditor_reference ∧
      str_from r = r.creditor_reference ∧
      display_str r = r.creditor_reference := by
  have hp : ∃ t, parse_str t = some (.ok r) := by
    rcases h with h | h | h
    · exact ⟨s, h⟩
    · exact try_new_ok_parse h
    · unfold new at h
      cases htn : try_new s with
      | none => rw [htn] at h; exact absurd h (by simp)
      | some e =>
        cases e with
        | error e1 => rw [htn] at h; simp only at h; exact absurd h (by simp)
        | ok r0 =>
          rw [htn] at h
          simp only [Option.some.injEq] at h
          subst h
          exact try_new_ok_parse htn
  obtain ⟨t, ht⟩ := hp
  obtain ⟨d1, d2, body, hn, hdig1, hdig2, hbne, hbody, hlen25, hcs, hcr⟩ :=
    parse_ok_struct ht
  have hbodysp : ∀ c ∈ body, c ≠ ' ' := fun c hc => validRefChar_ne_space (hbody c hc)
  have hpad : pad2 r.checksum = [d1, d2] := by
    rw [hcs]
    exact pad2_of_digits hdig1 hdig2
  refine ⟨body, ?_, ?_, chunks4_flatten body, chunks4_mem_shape body,
    chunks4_dropLast_len body, ?_, rfl, rfl, rfl, rfl⟩
  · rw [hcr, hpad, ← group4_joinSp_chunks4]
    rfl
  · obtain ⟨u1, u2⟩ := digitChar_toNat hdig1.1 hdig1.2
    obtain ⟨u3, u4⟩ := digitChar_toNat hdig2.1 hdig2.2
    rw [hcs]
    omega
  · show convert_electronic r.creditor_reference = _
    rw [hcr, strip_printable hdig1 hdig2 hbodysp, hpad]
    rfl

/-- C10 witness: the invariant at the parsed reference `"RF18539007547034"`. -/
theorem c10_constructed_invariant_witness :
    ∃ body,
      (RfCreditorReference.mk 18 (chars "RF18 5390 0754 7034")).creditor_reference =
        chars "RF" ++ pad2 (RfCreditorReference.mk 18
          (chars "RF18 5390 0754 7034")).checksum ++ [' '] ++ joinSp (chunks4 body) ∧
      (RfCreditorReference.mk 18 (chars "RF18 5390 0754 7034")).checksum < 100 ∧
      (chunks4 body).flatten = body ∧
      (∀ x ∈ chunks4 body, x ≠ [] ∧ x.length ≤ 4) ∧
      (∀ x ∈ (chunks4 body).dropLast, x.length = 4) ∧
      to_electronic_string (RfCreditorReference.mk 18 (chars "RF18 5390 0754 7034")) =
        chars "RF" ++ pad2 (RfCreditorReference.mk 18
          (chars "RF18 5390 0754 7034")).checksum ++ body ∧
      to_electronic_string (RfCreditorReference.mk 18 (chars "RF18 5390 0754 7034")) =
        convert_electronic (RfCreditorReference.mk 18
          (chars "RF18 5390 0754 7034")).creditor_reference ∧
      string_from (RfCreditorReference.mk 18 (chars "RF18 5390 0754 7034")) =
        (RfCreditorReference.mk 18 (chars "RF18 5390 0754 7034")).creditor_reference ∧
      str_from (RfCreditorReference.mk 18 (chars "RF18 5390 0754 7034")) =
        (RfCreditorReference.mk 18 (chars "RF18 5390 0754 7034")).creditor_reference ∧
      display_str (RfCreditorReference.mk 18 (chars "RF18 5390 0754 7034")) =
        (RfCreditorReference.mk 18 (chars "RF18 5390 0754 7034")).creditor_reference :=
  c10_constructed_invariant (chars "RF18539007547034")
    (RfCreditorReference.mk 18 (chars "RF18 5390 0754 7034")) (Or.inl (by decide))

end Iso11649
